import Mathlib

/-!
Formal model of the intent layer of the ODD-E voice assistant.

The definitions below are shallow embeddings of the Python sources:
`src/intent_parser.py` (text normalization, fuzzy matching, intent
classification), `src/audio.py` (push-to-talk capture and transcription
retry) and the dispatch blocks of `assistant.py` / `assistant_api.py`.
-/

namespace VoiceAssistant

/-- Characters kept by the normalization regex `[^a-z0-9 ]+` of
`src/intent_parser.py` line 10: ASCII lowercase letters (97..122),
digits (48..57) and the space (32). -/
def allowedChar (c : Char) : Bool :=
  (97 ≤ c.toNat && c.toNat ≤ 122) || (48 ≤ c.toNat && c.toNat ≤ 57) || c.toNat == 32

/-- Run-collapsing substitution: `re.sub` with pattern `[^a-z0-9 ]+` and a
single-space replacement rewrites each maximal run of disallowed characters
to one space.  The boolean flag records whether the previous character was
inside a disallowed run. -/
def subAux : Bool → List Char → List Char
  | _, [] => []
  | inRun, c :: rest =>
    if allowedChar c then c :: subAux false rest
    else if inRun then subAux true rest
    else ' ' :: subAux true rest

/-- Python `str.strip`: drop whitespace from both ends of the character list. -/
def stripChars (l : List Char) : List Char :=
  ((l.dropWhile Char.isWhitespace).reverse.dropWhile Char.isWhitespace).reverse

/-- `normalize` of `src/intent_parser.py` lines 8-10:
`re.sub(r"[^a-z0-9 ]+", " ", text.lower()).strip()`. -/
def normalize (text : String) : String :=
  ⟨stripChars (subAux false (text.data.map Char.toLower))⟩

/-! Basic facts used for the idempotence of `normalize`. -/

theorem toLower_of_allowed {c : Char} (h : allowedChar c = true) :
    Char.toLower c = c := by
  unfold Char.toLower
  have : ¬ (Char.toNat c ≥ 65 ∧ Char.toNat c ≤ 90) := by
    simp only [allowedChar, Bool.or_eq_true, Bool.and_eq_true, decide_eq_true_eq,
      beq_iff_eq] at h
    omega
  simp [this]

theorem allowedChar_space : allowedChar ' ' = true := by decide

theorem mem_subAux_allowed :
    ∀ (b : Bool) (l : List Char) (c : Char), c ∈ subAux b l → allowedChar c = true := by
  intro b l
  induction l generalizing b with
  | nil => intro c hc; simp [subAux] at hc
  | cons a rest ih =>
    intro c hc
    by_cases ha : allowedChar a = true
    · simp only [subAux, ha, if_pos] at hc
      rcases List.mem_cons.mp hc with h | h
      · exact h ▸ ha
      · exact ih false c h
    · simp only [subAux, ha] at hc
      cases b with
      | true => simpa using ih true c (by simpa using hc)
      | false =>
        simp only [Bool.false_eq_true, if_false] at hc
        rcases List.mem_cons.mp hc with h | h
        · exact h ▸ allowedChar_space
        · exact ih true c h

theorem subAux_of_allowed :
    ∀ (b : Bool) (l : List Char), (∀ c ∈ l, allowedChar c = true) → subAux b l = l := by
  intro b l
  induction l generalizing b with
  | nil => intro _; rfl
  | cons a rest ih =>
    intro h
    have ha : allowedChar a = true := h a (List.mem_cons_self a rest)
    simp [subAux, ha, ih false (fun c hc => h c (List.mem_cons_of_mem a hc))]

theorem mem_stripChars {l : List Char} {c : Char} (h : c ∈ stripChars l) : c ∈ l := by
  unfold stripChars at h
  rw [List.mem_reverse] at h
  have h1 := (List.dropWhile_sublist Char.isWhitespace).subset h
  rw [List.mem_reverse] at h1
  exact (List.dropWhile_sublist Char.isWhitespace).subset h1

theorem dropWhile_head_not (p : Char → Bool) :
    ∀ (l : List Char) (c : Char), (l.dropWhile p).head? = some c → p c = false := by
  intro l
  induction l with
  | nil => intro c hc; simp [List.dropWhile] at hc
  | cons a rest ih =>
    intro c hc
    by_cases ha : p a = true
    · rw [List.dropWhile_cons_of_pos ha] at hc
      exact ih c hc
    · rw [List.dropWhile_cons_of_neg ha] at hc
      simp only [List.head?_cons, Option.some.injEq] at hc
      subst hc
      simpa using ha

theorem dropWhile_of_head_not {p : Char → Bool} {l : List Char}
    (h : ∀ c, l.head? = some c → p c = false) : l.dropWhile p = l := by
  cases l with
  | nil => rfl
  | cons a rest =>
    have := h a rfl
    rw [List.dropWhile_cons_of_neg (by simp [this])]

theorem dropWhile_dropWhile (p : Char → Bool) :
    ∀ l : List Char, (l.dropWhile p).dropWhile p = l.dropWhile p := by
  intro l
  induction l with
  | nil => rfl
  | cons a rest ih =>
    by_cases ha : p a = true
    · rw [List.dropWhile_cons_of_pos ha]; exact ih
    · rw [List.dropWhile_cons_of_neg (by simp [ha]),
        List.dropWhile_cons_of_neg (by simp [ha])]

theorem getLast?_dropWhile (p : Char → Bool) :
    ∀ l : List Char, l.dropWhile p ≠ [] → (l.dropWhile p).getLast? = l.getLast? := by
  intro l
  induction l with
  | nil => intro h; simp [List.dropWhile] at h
  | cons a rest ih =>
    intro h
    by_cases ha : p a = true
    · rw [List.dropWhile_cons_of_pos ha] at h ⊢
      have hrest : rest ≠ [] := by
        intro he; subst he; simp [List.dropWhile] at h
      rw [ih h]
      cases rest with
      | nil => exact absurd rfl hrest
      | cons b rs => simp [List.getLast?_cons_cons]
    · rw [List.dropWhile_cons_of_neg (by simp [ha])]

theorem stripChars_idem (l : List Char) : stripChars (stripChars l) = stripChars l := by
  set ws := Char.isWhitespace with hws
  set A := l.dropWhile ws with hA
  set C := A.reverse.dropWhile ws with hC
  have hstrip : stripChars l = C.reverse := rfl
  rw [hstrip]
  by_cases hCnil : C = []
  · rw [hCnil]; rfl
  · have hheadC : ∀ c, C.head? = some c → ws c = false := by
      intro c hc
      exact dropWhile_head_not ws A.reverse c (hC ▸ hc)
    have hAnil : A ≠ [] := by
      intro he
      apply hCnil
      rw [hC, he]
      rfl
    have hlastC : C.getLast? = A.head? := by
      have := getLast?_dropWhile ws A.reverse (hC ▸ hCnil)
      rw [hC, this, List.getLast?_reverse]
    have hheadA : ∀ c, A.head? = some c → ws c = false := by
      intro c hc
      exact dropWhile_head_not ws l c (hA ▸ hc)
    have hrev_head : ∀ c, C.reverse.head? = some c → ws c = false := by
      intro c hc
      rw [List.head?_reverse] at hc
      rw [hlastC] at hc
      exact hheadA c hc
    have step1 : C.reverse.dropWhile ws = C.reverse := dropWhile_of_head_not hrev_head
    show ((C.reverse.dropWhile ws).reverse.dropWhile ws).reverse = C.reverse
    rw [step1, List.reverse_reverse]
    have step2 : C.dropWhile ws = C := by
      rw [hC]; exact dropWhile_dropWhile ws A.reverse
    rw [step2]

theorem normalize_chars_allowed (x : String) :
    ∀ c ∈ (normalize x).data, allowedChar c = true := by
  intro c hc
  have : c ∈ subAux false (x.data.map Char.toLower) := mem_stripChars hc
  exact mem_subAux_allowed false _ c this

theorem normalize_idem (x : String) : normalize (normalize x) = normalize x := by
  have hall := normalize_chars_allowed x
  have hmap : (normalize x).data.map Char.toLower = (normalize x).data := by
    have h1 : (normalize x).data.map Char.toLower = (normalize x).data.map id :=
      List.map_congr_left (fun c hc => toLower_of_allowed (hall c hc))
    rw [h1, List.map_id]
  show (⟨stripChars (subAux false ((normalize x).data.map Char.toLower))⟩ : String) =
    normalize x
  rw [hmap, subAux_of_allowed false _ hall]
  have h2 : (normalize x).data = stripChars (subAux false (x.data.map Char.toLower)) := rfl
  rw [h2, stripChars_idem]
  rfl

theorem subAux_of_none_allowed_true :
    ∀ l : List Char, (∀ c ∈ l, allowedChar c = false) → subAux true l = [] := by
  intro l
  induction l with
  | nil => intro _; rfl
  | cons a rest ih =>
    intro h
    have ha := h a (List.mem_cons_self a rest)
    simp [subAux, ha, ih (fun c hc => h c (List.mem_cons_of_mem a hc))]

theorem normalize_punct_empty (x : String)
    (h : ∀ c ∈ x.data, allowedChar (Char.toLower c) = false) : normalize x = "" := by
  have hmem : ∀ c ∈ x.data.map Char.toLower, allowedChar c = false := by
    intro c hc
    rcases List.mem_map.mp hc with ⟨d, hd, rfl⟩
    exact h d hd
  show (⟨stripChars (subAux false (x.data.map Char.toLower))⟩ : String) = ""
  cases hx : x.data.map Char.toLower with
  | nil => rfl
  | cons a rest =>
    rw [hx] at hmem
    have ha := hmem a (List.mem_cons_self a rest)
    have hsub : subAux false (a :: rest) = [' '] := by
      simp [subAux, ha,
        subAux_of_none_allowed_true rest (fun c hc => hmem c (List.mem_cons_of_mem a hc))]
    rw [hsub]
    rfl

/-- C5: `normalize` is total and idempotent — `normalize (normalize x) = normalize x`
for every string — and every string made only of characters outside `[a-z0-9 ]`
after lowercasing (punctuation) normalizes to the empty string. -/
theorem normalize_idempotent_and_punct :
    (∀ x : String, normalize (normalize x) = normalize x) ∧
    (∀ x : String, (∀ c ∈ x.data, allowedChar (Char.toLower c) = false) →
      normalize x = "") :=
  ⟨normalize_idem, normalize_punct_empty⟩

/-- Witness for C5 at concrete inputs. -/
theorem normalize_idempotent_and_punct_witness :
    normalize (normalize "Hello, World!") = normalize "Hello, World!" ∧
    normalize "?!.," = "" :=
  ⟨normalize_idempotent_and_punct.1 "Hello, World!",
   normalize_idempotent_and_punct.2 "?!.," (by decide)⟩

/-! Fuzzy matching (`best_match` of `src/intent_parser.py` lines 13-22).
The scorer and the selection routine come from the third-party `rapidfuzz`
library, which is not part of this repository; they are modelled from the
spec.  The repository-owned logic — normalization of query and labels,
the cutoff test, recovery of the original label via `norm_keys.index`,
and the tie-break — is embedded faithfully below. -/

/-- Words of a string: maximal runs of non-space characters, accumulated in
reverse into `acc` while scanning. -/
def wordsAux : List Char → List Char → List (List Char)
  | acc, [] => if acc = [] then [] else [acc.reverse]
  | acc, c :: rest =>
    if c = ' ' then
      (if acc = [] then wordsAux [] rest else acc.reverse :: wordsAux [] rest)
    else wordsAux (c :: acc) rest

/-- The set of words of a string, as a duplicate-free list. -/
def wordsOf (s : String) : List String :=
  ((wordsAux [] s.data).map (fun l => (⟨l⟩ : String))).dedup

/-- Modelled from the spec: `rapidfuzz.fuzz.token_set_ratio` is an external
library scorer, described in §4.2 as an order-insensitive, set-overlap-based
word similarity producing scores in `[0,100]` that rewards shared words and
penalizes by length difference.  Modelled as the Sørensen–Dice overlap of
the two sets of words, clamped to 100. -/
def fuzzTokenSetScore (a b : String) : Nat :=
  if wordsOf a = [] ∨ wordsOf b = [] then 0
  else
    min 100 ((200 * ((wordsOf a).filter (fun w => w ∈ wordsOf b)).length) /
      ((wordsOf a).length + (wordsOf b).length))

theorem fuzzTokenSetScore_le (a b : String) : fuzzTokenSetScore a b ≤ 100 := by
  unfold fuzzTokenSetScore
  split
  · exact Nat.zero_le 100
  · exact Nat.min_le_left _ _

/-- Modelled from the spec: `rapidfuzz.process.extractOne` is an external
library routine; it scans the choices in order and returns the first choice
attaining the maximum score together with that score (a later choice replaces
the current best only on a strictly greater score), or `None` when the choice
list is empty. -/
def extractOne (f : String → Nat) : List String → Option (String × Nat)
  | [] => none
  | c :: cs =>
    match extractOne f cs with
    | none => some (c, f c)
    | some (d, s) => if s > f c then some (d, s) else some (c, f c)

/-- `best_match` of `src/intent_parser.py` lines 13-22: return `None` on an
empty key list, otherwise normalize the keys (`norm_keys`, inlined here as
`keys.map normalize`), run `extractOne` with the token-set scorer on the
normalized query, and if the best score reaches the cutoff return the original
key recovered through `norm_keys.index` together with the score. -/
def best_match (name : String) (keys : List String) (cutoff : Nat) :
    Option (String × Nat) :=
  if keys = [] then none
  else
    match extractOne (fun k => fuzzTokenSetScore (normalize name) k)
        (keys.map normalize) with
    | none => none
    | some hit =>
      if cutoff ≤ hit.2 then
        some (keys.getD ((keys.map normalize).indexOf hit.1) "", hit.2)
      else none

/-- Scores of the normalized query against each normalized key, in key order. -/
def scoresOf (name : String) (keys : List String) : List Nat :=
  keys.map (fun k => fuzzTokenSetScore (normalize name) (normalize k))

/-- Maximum token-set similarity score of the query over the key list. -/
def maxScore (name : String) (keys : List String) : Nat :=
  (scoresOf name keys).foldr max 0

/-- Index of the first key attaining the maximum score. -/
def firstMaxIdx (name : String) (keys : List String) : Nat :=
  (scoresOf name keys).indexOf (maxScore name keys)

/-! Generic list lemmas for the extraction argument. -/

theorem foldr_max_mem : ∀ l : List Nat, l ≠ [] → l.foldr max 0 ∈ l := by
  intro l
  induction l with
  | nil => intro h; exact absurd rfl h
  | cons a rest ih =>
    intro _
    by_cases hrest : rest = []
    · subst hrest
      simp
    · rw [List.foldr_cons]
      rcases max_choice a (rest.foldr max 0) with h | h
      · rw [h]; exact List.mem_cons_self _ _
      · rw [h]; exact List.mem_cons_of_mem a (ih hrest)

theorem foldr_max_ge : ∀ (l : List Nat) (x : Nat), x ∈ l → x ≤ l.foldr max 0 := by
  intro l
  induction l with
  | nil => intro x hx; simp at hx
  | cons a rest ih =>
    intro x hx
    rcases List.mem_cons.mp hx with h | h
    · subst h; exact Nat.le_max_left _ _
    · exact Nat.le_trans (ih x h) (Nat.le_max_right _ _)

theorem foldr_max_le (l : List Nat) (b : Nat) (h : ∀ x ∈ l, x ≤ b) :
    l.foldr max 0 ≤ b := by
  induction l with
  | nil => exact Nat.zero_le b
  | cons a rest ih =>
    rw [List.foldr_cons]
    exact Nat.max_le.mpr ⟨h a (List.mem_cons_self _ _),
      ih (fun x hx => h x (List.mem_cons_of_mem a hx))⟩

theorem getD_indexOf {α : Type} [DecidableEq α] {l : List α} {a : α} (d : α)
    (h : a ∈ l) : l.getD (l.indexOf a) d = a := by
  induction l with
  | nil => simp at h
  | cons b rest ih =>
    by_cases hba : b = a
    · subst hba
      simp [List.indexOf_cons_self]
    · have hmem : a ∈ rest := by
        rcases List.mem_cons.mp h with h1 | h1
        · exact absurd h1.symm hba
        · exact h1
      rw [List.indexOf_cons_ne _ hba, Nat.succ_eq_add_one, List.getD_cons_succ]
      exact ih hmem

theorem getD_ne_of_lt_indexOf {α : Type} [DecidableEq α] {l : List α} {a : α} (d : α) :
    ∀ i, i < l.indexOf a → l.getD i d ≠ a := by
  induction l with
  | nil =>
    intro i hi
    rw [List.indexOf_nil] at hi
    exact absurd hi (Nat.not_lt_zero i)
  | cons b rest ih =>
    intro i hi
    by_cases hba : b = a
    · subst hba
      rw [List.indexOf_cons_self] at hi
      exact absurd hi (Nat.not_lt_zero i)
    · rw [List.indexOf_cons_ne _ hba] at hi
      cases i with
      | zero => simpa using hba
      | succ j =>
        rw [List.getD_cons_succ]
        exact ih j (Nat.lt_of_succ_lt_succ hi)

theorem getD_map_of_lt (f : String → Nat) (l : List String) (i : Nat)
    (h : i < l.length) (d : String) : (l.map f).getD i 0 = f (l.getD i d) := by
  rw [List.getD_eq_getElem?_getD, List.getD_eq_getElem?_getD, List.getElem?_map]
  rw [List.getElem?_eq_getElem h]
  simp

theorem getD_mem_of_lt {α : Type} (l : List α) (i : Nat) (h : i < l.length) (d : α) :
    l.getD i d ∈ l := by
  rw [List.getD_eq_getElem?_getD, List.getElem?_eq_getElem h]
  simpa using List.getElem_mem h

/-- The library extraction returns the element at the first index attaining the
maximum score, together with that maximum. -/
theorem extractOne_eq (f : String → Nat) :
    ∀ l : List String, l ≠ [] →
      extractOne f l =
        some (l.getD ((l.map f).indexOf ((l.map f).foldr max 0)) "",
          (l.map f).foldr max 0) := by
  intro l
  induction l with
  | nil => intro h; exact absurd rfl h
  | cons c cs ih =>
    intro _
    by_cases hcs : cs = []
    · subst hcs
      show some (c, f c) = _
      simp [List.indexOf_cons_self]
    · have hstep : extractOne f (c :: cs) =
          if (cs.map f).foldr max 0 > f c then
            some (cs.getD ((cs.map f).indexOf ((cs.map f).foldr max 0)) "",
              (cs.map f).foldr max 0)
          else some (c, f c) := by
        have h1 : extractOne f (c :: cs) =
            match extractOne f cs with
            | none => some (c, f c)
            | some (d, s) => if s > f c then some (d, s) else some (c, f c) := rfl
        rw [h1, ih hcs]
      by_cases hgt : (cs.map f).foldr max 0 > f c
      · rw [hstep, if_pos hgt]
        have hM : ((c :: cs).map f).foldr max 0 = (cs.map f).foldr max 0 := by
          simp only [List.map_cons, List.foldr_cons]
          omega
        rw [hM]
        have hfc : f c ≠ (cs.map f).foldr max 0 := by omega
        have hidx : ((c :: cs).map f).indexOf ((cs.map f).foldr max 0) =
            ((cs.map f).indexOf ((cs.map f).foldr max 0)) + 1 := by
          simp only [List.map_cons]
          rw [List.indexOf_cons_ne _ hfc]
        rw [hidx, List.getD_cons_succ]
      · rw [hstep, if_neg hgt]
        have hM : ((c :: cs).map f).foldr max 0 = f c := by
          simp only [List.map_cons, List.foldr_cons]
          omega
        rw [hM]
        have hidx : ((c :: cs).map f).indexOf (f c) = 0 := by
          simp only [List.map_cons]
          exact List.indexOf_cons_self _ _
        rw [hidx, List.getD_cons_zero]

/-- Recovering the first index of the selected normalized key through
`norm_keys.index` yields exactly the first index attaining the maximum score. -/
theorem indexOf_getD_firstmax (f : String → Nat) :
    ∀ l : List String, l ≠ [] →
      l.indexOf (l.getD ((l.map f).indexOf ((l.map f).foldr max 0)) "") =
        (l.map f).indexOf ((l.map f).foldr max 0) := by
  intro l
  induction l with
  | nil => intro h; exact absurd rfl h
  | cons c cs ih =>
    intro _
    by_cases hc : f c = ((c :: cs).map f).foldr max 0
    · have h0 : ((c :: cs).map f).indexOf (((c :: cs).map f).foldr max 0) = 0 := by
        rw [← hc]
        simp only [List.map_cons]
        exact List.indexOf_cons_self _ _
      rw [h0, List.getD_cons_zero]
      exact List.indexOf_cons_self _ _
    · have hM : ((c :: cs).map f).foldr max 0 = (cs.map f).foldr max 0 := by
        simp only [List.map_cons, List.foldr_cons] at hc ⊢
        rcases max_choice (f c) ((cs.map f).foldr max 0) with h | h
        · exact absurd h.symm hc
        · exact h
      have hcs : cs ≠ [] := by
        intro he
        subst he
        simp only [List.map_cons, List.map_nil, List.foldr_cons, List.foldr_nil] at hc
        rw [Nat.max_zero] at hc
        exact hc rfl
      have hMmem : (cs.map f).foldr max 0 ∈ cs.map f :=
        foldr_max_mem (cs.map f) (by simpa using hcs)
      have hlt : (cs.map f).indexOf ((cs.map f).foldr max 0) < cs.length := by
        have := List.indexOf_lt_length.mpr hMmem
        simpa using this
      have hfe : f (cs.getD ((cs.map f).indexOf ((cs.map f).foldr max 0)) "") =
          (cs.map f).foldr max 0 := by
        rw [← getD_map_of_lt f cs _ hlt ""]
        exact getD_indexOf 0 hMmem
      have hce : c ≠ cs.getD ((cs.map f).indexOf ((cs.map f).foldr max 0)) "" := by
        intro he
        apply hc
        rw [hM, ← hfe, ← he]
      have hidx : ((c :: cs).map f).indexOf (((c :: cs).map f).foldr max 0) =
          ((cs.map f).indexOf ((cs.map f).foldr max 0)) + 1 := by
        rw [hM]
        simp only [List.map_cons]
        rw [List.indexOf_cons_ne _ (fun he => hc (by rw [hM]; exact he))]
      rw [hidx, List.getD_cons_succ,
        List.indexOf_cons_ne _ hce, ih hcs]

/-- Core evaluation of `best_match` at the default cutoff when the key list is
non-empty and the maximum score reaches the cutoff. -/
theorem best_match_eq_some (name : String) (keys : List String)
    (hne : keys ≠ []) (hcut : 78 ≤ maxScore name keys) :
    best_match name keys 78 =
      some (keys.getD (firstMaxIdx name keys) "", maxScore name keys) := by
  have hnorm : keys.map normalize ≠ [] := fun he => hne (List.map_eq_nil_iff.mp he)
  have hE := extractOne_eq (fun k => fuzzTokenSetScore (normalize name) k)
    (keys.map normalize) hnorm
  have hI := indexOf_getD_firstmax (fun k => fuzzTokenSetScore (normalize name) k)
    (keys.map normalize) hnorm
  have hmm : (keys.map normalize).map (fun k => fuzzTokenSetScore (normalize name) k) =
      scoresOf name keys := by
    rw [List.map_map]
    rfl
  rw [hmm] at hE hI
  have hE2 : extractOne (fun k => fuzzTokenSetScore (normalize name) k)
      (keys.map normalize) =
      some ((keys.map normalize).getD (firstMaxIdx name keys) "",
        maxScore name keys) := hE
  have hI2 : List.indexOf ((keys.map normalize).getD (firstMaxIdx name keys) "")
      (keys.map normalize) = firstMaxIdx name keys := hI
  unfold best_match
  rw [if_neg hne]
  simp only [hE2]
  rw [if_pos hcut, hI2]

/-- Core evaluation of `best_match`: `none` when the maximum score is below the
cutoff. -/
theorem best_match_eq_none (name : String) (keys : List String)
    (hne : keys ≠ []) (hcut : maxScore name keys < 78) :
    best_match name keys 78 = none := by
  have hnorm : keys.map normalize ≠ [] := fun he => hne (List.map_eq_nil_iff.mp he)
  have hE := extractOne_eq (fun k => fuzzTokenSetScore (normalize name) k)
    (keys.map normalize) hnorm
  have hmm : (keys.map normalize).map (fun k => fuzzTokenSetScore (normalize name) k) =
      scoresOf name keys := by
    rw [List.map_map]
    rfl
  rw [hmm] at hE
  have hE2 : extractOne (fun k => fuzzTokenSetScore (normalize name) k)
      (keys.map normalize) =
      some ((keys.map normalize).getD (firstMaxIdx name keys) "",
        maxScore name keys) := hE
  unfold best_match
  rw [if_neg hne]
  simp only [hE2]
  rw [if_neg (by omega : ¬ (78 ≤ maxScore name keys))]

theorem maxScore_le_100 (name : String) (keys : List String) :
    maxScore name keys ≤ 100 := by
  apply foldr_max_le
  intro x hx
  rcases List.mem_map.mp hx with ⟨k, _, rfl⟩
  exact fuzzTokenSetScore_le _ _

theorem firstMaxIdx_lt (name : String) (keys : List String) (hne : keys ≠ []) :
    firstMaxIdx name keys < keys.length := by
  have hmem : maxScore name keys ∈ scoresOf name keys :=
    foldr_max_mem _ (by simp [scoresOf, hne])
  have := List.indexOf_lt_length.mpr hmem
  simpa [firstMaxIdx, scoresOf] using this

/-- C1: with the default cutoff 78, `best_match` returns `None` iff the label
list is empty or the maximum token-set similarity score of the normalized query
against the normalized labels is strictly below 78; otherwise it returns the
original (un-normalized) label together with that maximum score, which lies in
`[0,100]`. -/
theorem best_match_default_cutoff_spec (name : String) (keys : List String) :
    (best_match name keys 78 = none ↔ keys = [] ∨ maxScore name keys < 78) ∧
    (∀ lab s, best_match name keys 78 = some (lab, s) →
      lab ∈ keys ∧ s = maxScore name keys ∧ s ≤ 100) := by
  by_cases hne : keys = []
  · subst hne
    constructor
    · simp [best_match]
    · intro lab s h
      simp [best_match] at h
  · by_cases hcut : 78 ≤ maxScore name keys
    · have heq := best_match_eq_some name keys hne hcut
      constructor
      · rw [heq]
        constructor
        · intro h
          exact absurd h (by simp)
        · intro h
          rcases h with h | h
          · exact absurd h hne
          · omega
      · intro lab s h
        rw [heq] at h
        simp only [Option.some.injEq, Prod.mk.injEq] at h
        obtain ⟨h1, h2⟩ := h
        subst h1
        subst h2
        exact ⟨getD_mem_of_lt keys _ (firstMaxIdx_lt name keys hne) "", rfl,
          maxScore_le_100 name keys⟩
    · have heq := best_match_eq_none name keys hne (by omega)
      constructor
      · rw [heq]
        simp only [true_iff]
        right
        omega
      · intro lab s h
        rw [heq] at h
        simp at h

/-- Witness for C1: a query matching no label yields `None` via the
maximum-score characterization. -/
theorem best_match_default_cutoff_spec_witness :
    best_match "xyzzy" ["Chill Vibes"] 78 = none :=
  (best_match_default_cutoff_spec "xyzzy" ["Chill Vibes"]).1.mpr (Or.inr (by decide))

/-- C4: when at least two labels attain the maximum score and that score
reaches the cutoff, `best_match` returns the label that occurs first in the
key list among those attaining the maximum — and the returned string is the
original un-normalized label, a member of the key list. -/
theorem best_match_tie_break_first (name : String) (keys : List String)
    (hne : keys ≠ []) (hcut : 78 ≤ maxScore name keys)
    (htie : ∃ i j, i < j ∧ j < keys.length ∧
      (scoresOf name keys).getD i 0 = maxScore name keys ∧
      (scoresOf name keys).getD j 0 = maxScore name keys) :
    best_match name keys 78 =
      some (keys.getD (firstMaxIdx name keys) "", maxScore name keys) ∧
    (∀ i, i < firstMaxIdx name keys →
      (scoresOf name keys).getD i 0 ≠ maxScore name keys) ∧
    keys.getD (firstMaxIdx name keys) "" ∈ keys := by
  refine ⟨best_match_eq_some name keys hne hcut, ?_, ?_⟩
  · intro i hi
    exact getD_ne_of_lt_indexOf 0 i hi
  · exact getD_mem_of_lt keys _ (firstMaxIdx_lt name keys hne) ""

/-- Witness for C4: two labels normalize to the same string, tie at score 100,
and the first one is returned in its original casing. -/
theorem best_match_tie_break_first_witness :
    best_match "chill" ["Chill", "chill!"] 78 =
      some (["Chill", "chill!"].getD (firstMaxIdx "chill" ["Chill", "chill!"]) "",
        maxScore "chill" ["Chill", "chill!"]) :=
  (best_match_tie_break_first "chill" ["Chill", "chill!"] (by decide) (by decide)
    ⟨0, 1, by decide, by decide, by decide, by decide⟩).1

/-! Intent classification (`parse_intent` of `src/intent_parser.py` lines
25-58).  The two anchored regular expressions
`^play( my| the)? (.+) playlist$` and `^play( my| the)? (.+)$` are embedded
as explicit matchers: the optional group tries ` my`, then ` the`, then the
empty alternative, exactly as the regex engine backtracks, and the greedy
`(.+)` with an end-anchored literal tail has the unique decomposition
computed by `matchMid`. -/

/-- Match ` ` followed by a non-empty group `(.+)` followed by the literal
`suffix`, end-anchored: succeeds iff the input starts with a space, ends with
`suffix`, and has a non-empty middle, which it returns. -/
def matchMid (r : List Char) (suffix : List Char) : Option (List Char) :=
  match r with
  | [] => none
  | c :: rest =>
    if c == ' ' && suffix.isSuffixOf rest && decide (suffix.length < rest.length) then
      some (rest.take (rest.length - suffix.length))
    else none

/-- Try one alternative `g1` of the optional group `( my| the)?`. -/
def tryG1 (g1 rest suffix : List Char) : Option (List Char) :=
  if g1.isPrefixOf rest then matchMid (rest.drop g1.length) suffix else none

/-- Capture group 2 of `^play( my| the)? (.+)<suffix>$` on input `l`. -/
def group2 (l : List Char) (suffix : List Char) : Option (List Char) :=
  if ("play".data).isPrefixOf l then
    match tryG1 (" my".data) (l.drop 4) suffix with
    | some g => some g
    | none =>
      match tryG1 (" the".data) (l.drop 4) suffix with
      | some g => some g
      | none => tryG1 [] (l.drop 4) suffix
  else none

/-- Pattern 5, `^play( my| the)? (.+) playlist$`, returning the stripped
capture (`m.group(2).strip()` of line 40). -/
def match5 (t : String) : Option String :=
  (group2 t.data (" playlist".data)).map (fun g => (⟨stripChars g⟩ : String))

/-- Pattern 6, `^play( my| the)? (.+)$`, returning the stripped capture
(`m.group(2).strip()` of line 49). -/
def match6 (t : String) : Option String :=
  (group2 t.data []).map (fun g => (⟨stripChars g⟩ : String))

/-- Body of `parse_intent` on the already-normalized transcript `t`
(`src/intent_parser.py` lines 27-58; the Python assigns `t = normalize(text)`
once and uses only `t` afterwards). -/
def parseNorm (t : String) (playlists : List (String × String)) :
    String × Option String :=
  if t ∈ ["play", "pause", "resume", "next", "previous", "prev", "mute"] then
    ("transport", some (if t = "prev" then "previous" else t))
  else if t ∈ ["volume up", "turn it up", "louder", "vol up"] then
    ("transport", some "volup")
  else if t ∈ ["volume down", "turn it down", "quieter", "vol down"] then
    ("transport", some "voldown")
  else
    match match5 t with
    | some raw =>
      match best_match raw (playlists.map Prod.fst) 78 with
      | some hit => ("playlist", List.lookup hit.1 playlists)
      | none =>
        ("say", some ("I don't know the '" ++ raw ++ "' playlist. Add it to config.json."))
    | none =>
      match match6 t with
      | some raw =>
        match best_match raw (playlists.map Prod.fst) 78 with
        | some hit => ("playlist", List.lookup hit.1 playlists)
        | none => ("song", some raw)
      | none =>
        if t ∈ ["open spotify", "launch spotify", "open spoti", "open the spotify"] then
          ("open", none)
        else ("say", some "Unrecognized command.")

/-- `parse_intent` of `src/intent_parser.py` lines 25-58. -/
def parse_intent (text : String) (playlists : List (String × String)) :
    String × Option String :=
  parseNorm (normalize text) playlists

/-! Length bounds extracted from a successful pattern match, used to rule the
literal command sets out. -/

theorem matchMid_some_length {r suffix g : List Char}
    (h : matchMid r suffix = some g) : suffix.length + 2 ≤ r.length := by
  cases r with
  | nil => simp [matchMid] at h
  | cons c rest =>
    have h' : (if (c == ' ' && suffix.isSuffixOf rest
        && decide (suffix.length < rest.length)) = true then
        some (rest.take (rest.length - suffix.length)) else none) = some g := h
    by_cases hc : (c == ' ' && suffix.isSuffixOf rest
        && decide (suffix.length < rest.length)) = true
    · have hlt : suffix.length < rest.length := by
        have := (Bool.and_eq_true _ _).mp hc
        exact of_decide_eq_true this.2
      simp only [List.length_cons]
      omega
    · rw [if_neg hc] at h'
      simp at h'

theorem tryG1_some_length {g1 rest suffix g : List Char}
    (h : tryG1 g1 rest suffix = some g) : suffix.length + 2 ≤ rest.length := by
  unfold tryG1 at h
  by_cases hp : g1.isPrefixOf rest = true
  · rw [if_pos hp] at h
    have := matchMid_some_length h
    have hd : (rest.drop g1.length).length = rest.length - g1.length :=
      List.length_drop _ _
    omega
  · rw [if_neg hp] at h
    simp at h

theorem group2_some_length {l suffix g : List Char}
    (h : group2 l suffix = some g) : suffix.length + 6 ≤ l.length := by
  unfold group2 at h
  by_cases hp : ("play".data).isPrefixOf l = true
  · rw [if_pos hp] at h
    have hd : (l.drop 4).length = l.length - 4 := List.length_drop _ _
    cases h1 : tryG1 (" my".data) (l.drop 4) suffix with
    | some g1 =>
      have := tryG1_some_length h1
      omega
    | none =>
      rw [h1] at h
      cases h2 : tryG1 (" the".data) (l.drop 4) suffix with
      | some g2 =>
        have := tryG1_some_length h2
        omega
      | none =>
        rw [h2] at h
        have := tryG1_some_length h
        omega
  · rw [if_neg hp] at h
    simp at h

/-- C6: a transcript normalizing to one of the literal transport words yields a
transport intent carrying that word, with `prev` canonicalized to `previous`,
for every playlists map; in particular `parse_intent "play" {}` is
`(transport, play)`. -/
theorem parse_intent_transport_words :
    (∀ (text : String) (playlists : List (String × String)),
      normalize text ∈ ["play", "pause", "resume", "next", "previous", "prev", "mute"] →
      parse_intent text playlists =
        ("transport",
          some (if normalize text = "prev" then "previous" else normalize text))) ∧
    parse_intent "play" [] = ("transport", some "play") := by
  constructor
  · intro text playlists h
    unfold parse_intent parseNorm
    rw [if_pos h]
  · rfl

/-- Witness for C6 at a concrete transcript and non-empty playlists map. -/
theorem parse_intent_transport_words_witness :
    parse_intent "Prev." [("Chill Vibes", "target:123")] =
      ("transport",
        some (if normalize "Prev." = "prev" then "previous" else normalize "Prev.")) :=
  parse_intent_transport_words.1 "Prev." [("Chill Vibes", "target:123")] (by decide)

/-- C7: `parse_intent` is total — it always returns an intent whose tag lies in
the closed set — and a transcript normalizing to the empty string falls through
every literal set and pattern to the unrecognized-command say intent. -/
theorem parse_intent_total_and_empty :
    (∀ (text : String) (playlists : List (String × String)),
      (parse_intent text playlists).1 ∈ ["transport", "playlist", "song", "open", "say"]) ∧
    (∀ (text : String) (playlists : List (String × String)),
      normalize text = "" →
      parse_intent text playlists = ("say", some "Unrecognized command.")) := by
  constructor
  · intro text playlists
    unfold parse_intent parseNorm
    repeat' split
    all_goals simp
  · intro text playlists h
    unfold parse_intent
    rw [h]
    rfl

/-- Witness for C7 on a transcript of pure punctuation. -/
theorem parse_intent_total_and_empty_witness :
    parse_intent "?!" [("Chill Vibes", "target:123")] =
      ("say", some "Unrecognized command.") :=
  parse_intent_total_and_empty.2 "?!" [("Chill Vibes", "target:123")] (by decide)

/-- C2: a transcript whose normalization matches
`play [my|the] <name> playlist` with a `<name>` that does not fuzzy-match any
playlist key yields the say intent naming `<name>`, never a song intent —
pattern 5 takes priority over the looser pattern 6. -/
theorem parse_intent_playlist_pattern_priority (text : String)
    (playlists : List (String × String)) (name : String)
    (h5 : match5 (normalize text) = some name)
    (hnm : best_match name (playlists.map Prod.fst) 78 = none) :
    parse_intent text playlists =
      ("say", some ("I don't know the '" ++ name ++ "' playlist. Add it to config.json.")) ∧
    (parse_intent text playlists).1 ≠ "song" := by
  have hlen15 : 15 ≤ (normalize text).data.length := by
    have hg : ∃ g, group2 (normalize text).data (" playlist".data) = some g := by
      unfold match5 at h5
      cases hgg : group2 (normalize text).data (" playlist".data) with
      | none => rw [hgg] at h5; simp at h5
      | some g => exact ⟨g, rfl⟩
    obtain ⟨g, hg⟩ := hg
    have := group2_some_length hg
    simpa using this
  have hne : ∀ s : String, s.data.length < 15 → normalize text ≠ s := by
    intro s hs he
    rw [he] at hlen15
    omega
  have hset1 : normalize text ∉
      (["play", "pause", "resume", "next", "previous", "prev", "mute"] : List String) := by
    intro hmem
    simp only [List.mem_cons, List.not_mem_nil, or_false] at hmem
    rcases hmem with h | h | h | h | h | h | h <;> exact hne _ (by decide) h
  have hset2 : normalize text ∉
      (["volume up", "turn it up", "louder", "vol up"] : List String) := by
    intro hmem
    simp only [List.mem_cons, List.not_mem_nil, or_false] at hmem
    rcases hmem with h | h | h | h <;> exact hne _ (by decide) h
  have hset3 : normalize text ∉
      (["volume down", "turn it down", "quieter", "vol down"] : List String) := by
    intro hmem
    simp only [List.mem_cons, List.not_mem_nil, or_false] at hmem
    rcases hmem with h | h | h | h <;> exact hne _ (by decide) h
  have heq : parse_intent text playlists =
      ("say", some ("I don't know the '" ++ name ++ "' playlist. Add it to config.json.")) := by
    unfold parse_intent parseNorm
    rw [if_neg hset1, if_neg hset2, if_neg hset3]
    simp only [h5, hnm]
  refine ⟨heq, ?_⟩
  rw [heq]
  simp

/-- Witness for C2: `play the xyzzy playlist` against a playlists map that does
not contain `xyzzy`. -/
theorem parse_intent_playlist_pattern_priority_witness :
    parse_intent "play the xyzzy playlist" [("Chill Vibes", "target:123")] =
      ("say", some ("I don't know the '" ++ "xyzzy" ++ "' playlist. Add it to config.json.")) :=
  (parse_intent_playlist_pattern_priority "play the xyzzy playlist"
    [("Chill Vibes", "target:123")] "xyzzy" (by decide) (by decide)).1

/-- C10: classification is invariant under ASCII letter case of the transcript:
two transcripts whose characters agree after `Char.toLower` classify
identically, because `normalize` lowercases before any comparison. -/
theorem parse_intent_case_insensitive (t u : String)
    (playlists : List (String × String))
    (h : t.data.map Char.toLower = u.data.map Char.toLower) :
    parse_intent t playlists = parse_intent u playlists := by
  have hn : normalize t = normalize u := by
    unfold normalize
    rw [h]
  unfold parse_intent
  rw [hn]

/-- Witness for C10 on a concrete pair differing only in letter case. -/
theorem parse_intent_case_insensitive_witness :
    parse_intent "PLAY Bohemian Rhapsody" [] = parse_intent "play bohemian rhapsody" [] :=
  parse_intent_case_insensitive "PLAY Bohemian Rhapsody" "play bohemian rhapsody" []
    (by decide)

/-! Push-to-talk capture (`src/audio.py` lines 51-70) and transcription retry
(`src/audio.py` lines 80-108).  Audio samples are abstracted to an arbitrary
element type; the queue/producer thread is abstracted to the list of chunks
captured while the key was held during one press. -/

/-- One push-to-talk key press of `PTTRecorder.record_blocking`
(`src/audio.py` lines 56-70): the chunks captured while the key was held are
concatenated and yielded only when at least one chunk was captured
(`if chunks:`); a press with no captured chunk yields nothing. -/
def record_yield {α : Type} (chunks : List (List α)) : Option (List α) :=
  if chunks.isEmpty then none else some chunks.flatten

/-- The consuming loop of `assistant.py` lines 365-373: a yielded buffer is
transcribed, and an empty transcription is skipped (`if not text: continue`)
before any classification; a press that yielded nothing is never transcribed
nor classified. -/
def loop_classify {α : Type} (yielded : Option (List α))
    (stt : List α → String) (playlists : List (String × String)) :
    Option (String × Option String) :=
  match yielded with
  | none => none
  | some buf =>
    if stt buf = "" then none
    else some (parse_intent (stt buf) playlists)

/-- C8: the push-to-talk loop yields a buffer iff at least one chunk was
captured while the key was held; a press with zero captured chunks yields
nothing, so it never reaches the classifier. -/
theorem record_yield_nonempty :
    (∀ chunks : List (List Int), record_yield chunks = none ↔ chunks = []) ∧
    (∀ (chunks : List (List Int)) (buf : List Int),
      record_yield chunks = some buf → chunks ≠ [] ∧ buf = chunks.flatten) ∧
    (∀ (stt : List Int → String) (playlists : List (String × String)),
      loop_classify (record_yield ([] : List (List Int))) stt playlists = none) := by
  refine ⟨?_, ?_, ?_⟩
  · intro chunks
    unfold record_yield
    by_cases h : chunks = []
    · simp [h]
    · simp [h, List.isEmpty_iff]
  · intro chunks buf h
    unfold record_yield at h
    by_cases hc : chunks = []
    · rw [if_pos (by simp [hc] : chunks.isEmpty = true)] at h
      simp at h
    · rw [if_neg (by simp [List.isEmpty_iff, hc] : ¬ chunks.isEmpty = true)] at h
      simp only [Option.some.injEq] at h
      exact ⟨hc, h.symm⟩
  · intro stt playlists
    rfl

/-- Witness for C8: a concrete two-chunk press is yielded as the concatenation. -/
theorem record_yield_nonempty_witness :
    ([[1, 2], [3]] : List (List Int)) ≠ [] ∧
    ([1, 2, 3] : List Int) = ([[1, 2], [3]] : List (List Int)).flatten :=
  record_yield_nonempty.2.1 [[1, 2], [3]] [1, 2, 3] (by decide)

/-- `transcribe_audio` of `src/audio.py` lines 80-108, with the Whisper model
call abstracted as `call : Bool → Except E (List String)`, taking the
`vad_filter` flag and returning the segment texts or raising; the 48k→16k
downsampling of lines 82-83 does not affect the control flow modelled here.
The first call passes the caller's `use_vad`; on exception the call is
repeated once with `vad_filter=False` and a second failure propagates.  The
result is the joined, stripped text (`"".join(...).strip()`), paired with the
`vad_filter` value of each call made, in order. -/
def transcribe_audio {E : Type} (call : Bool → Except E (List String))
    (use_vad : Bool) : Except E String × List Bool :=
  match call use_vad with
  | Except.ok segs =>
    (Except.ok (⟨stripChars (String.join segs).data⟩ : String), [use_vad])
  | Except.error _ =>
    match call false with
    | Except.ok segs =>
      (Except.ok (⟨stripChars (String.join segs).data⟩ : String), [use_vad, false])
    | Except.error e => (Except.error e, [use_vad, false])

/-- C9: if the first transcription attempt (VAD enabled) raises, exactly one
retry is made, with VAD disabled; if the first attempt succeeds no retry is
made; and a still-empty transcription surfaces as the empty string, not as an
error. -/
theorem transcribe_retry_once {E : Type} (call : Bool → Except E (List String)) :
    (∀ e : E, call true = Except.error e →
      ( transcribe_audio call true).2 = [true, false]) ∧
    (∀ segs : List String, call true = Except.ok segs →
      transcribe_audio call true =
        (Except.ok (⟨stripChars (String.join segs).data⟩ : String), [true])) ∧
    (call true = Except.ok [] → ( transcribe_audio call true).1 = Except.ok "") := by
  refine ⟨?_, ?_, ?_⟩
  · intro e he
    cases hf : call false with
    | ok segs => simp [ transcribe_audio, he, hf]
    | error e2 => simp [ transcribe_audio, he, hf]
  · intro segs hs
    simp [ transcribe_audio, hs]
  · intro h0
    simp [ transcribe_audio, h0]
    rfl

/-- A concrete model call that raises with VAD enabled and succeeds without. -/
def cFailVad : Bool → Except Unit (List String) :=
  fun b => if b then Except.error () else Except.ok ["ok"]

/-- Witness for C9: with the failing-then-succeeding call, exactly the two
attempts `[true, false]` are made. -/
theorem transcribe_retry_once_witness :
    ( transcribe_audio cFailVad true).2 = [true, false] :=
  (transcribe_retry_once cFailVad).1 () rfl

/-! Command dispatch.  `assistant.py` (OS-automation backend) and
`assistant_api.py` (Spotify Web-API backend) each dispatch the parsed intent;
the backend operations performed are recorded as explicit action lists. -/

/-- Backend calls and user notices of the automation dispatcher in
`assistant.py`. -/
inductive AutoAct : Type where
  | ensureRunning : AutoAct
  | bringToFront : AutoAct
  | openPlaylist : String → AutoAct
  | searchAndPlay : String → AutoAct
  | transport : String → AutoAct
  | notice : String → AutoAct
deriving DecidableEq

/-- Python truthiness of the optional intent argument (`if arg:`): `None` and
the empty string are falsy. -/
def truthy : Option String → Bool
  | none => false
  | some s => !(s == "")

/-- Dispatch block of `main` in `assistant.py` lines 377-388, as the ordered
list of calls it performs: `media_transport` ↦ `transport`,
`ensure_spotify_running` ↦ `ensureRunning`, `bring_spotify_to_front` ↦
`bringToFront`, `open_spotify_uri` ↦ `openPlaylist`, `search_and_play` ↦
`searchAndPlay`, `print` ↦ `notice`.  Note that for a playlist intent the code
runs `ensure_spotify_running(); bring_spotify_to_front()` before checking
whether the target is present. -/
def main_dispatch (typ : String) (arg : Option String) : List AutoAct :=
  if typ = "transport" then [AutoAct.transport (arg.getD "")]
  else if typ = "playlist" then
    AutoAct.ensureRunning :: AutoAct.bringToFront ::
      (if truthy arg then [AutoAct.openPlaylist (arg.getD "")]
       else [AutoAct.notice "Missing playlist URI."])
  else if typ = "song" then [AutoAct.ensureRunning, AutoAct.searchAndPlay (arg.getD "")]
  else if typ = "open" then [AutoAct.ensureRunning, AutoAct.bringToFront]
  else if typ = "say" then [AutoAct.notice (arg.getD "")]
  else []

/-- Spotify Web-API calls of `handle_intent_api` in `assistant_api.py`. -/
inductive ApiAct : Type where
  | playPause : ApiAct
  | nextTrack : ApiAct
  | prevTrack : ApiAct
  | volumeStep : Int → ApiAct
  | startPlaylist : String → ApiAct
  | searchAndPlay : String → ApiAct
  | ensureDevice : ApiAct
  | notice : String → ApiAct
deriving DecidableEq

/-- `handle_intent_api` of `assistant_api.py` lines 220-250, as the ordered
list of Web-API calls it performs (`sp.play_pause` ↦ `playPause`, `sp.next` ↦
`nextTrack`, `sp.previous` ↦ `prevTrack`, `sp.volume_step` ↦ `volumeStep`,
`sp.start_playlist` ↦ `startPlaylist`, `sp.search_and_play` ↦ `searchAndPlay`,
`sp._ensure_device` ↦ `ensureDevice`; the prints that depend on the runtime
result of `_ensure_device` are not recorded). -/
def handle_intent_api (typ : String) (arg : Option String) : List ApiAct :=
  if typ = "transport" then
    if arg.getD "" ∈ ["play", "pause", "resume"] then [ApiAct.playPause]
    else if arg.getD "" = "next" then [ApiAct.nextTrack]
    else if arg.getD "" ∈ ["previous", "prev"] then [ApiAct.prevTrack]
    else if arg.getD "" = "volup" then [ApiAct.volumeStep 10]
    else if arg.getD "" = "voldown" then [ApiAct.volumeStep (-10)]
    else if arg.getD "" = "mute" then [ApiAct.volumeStep (-100)]
    else []
  else if typ = "playlist" then
    if truthy arg = false then [ApiAct.notice "Missing playlist URI."]
    else [ApiAct.startPlaylist (arg.getD "")]
  else if typ = "song" then [ApiAct.searchAndPlay (arg.getD "")]
  else if typ = "open" then [ApiAct.ensureDevice]
  else if typ = "say" then [ApiAct.notice (arg.getD "")]
  else []

/-- C3 counterexample: dispatching a playlist intent with a missing target
through the automation dispatcher of `assistant.py` does perform backend
actions — `ensureRunning` and `bringToFront` are called before the target
check — refuting the claim that none of the backend operations is called. -/
theorem dispatch_missing_target_counterexample :
    AutoAct.ensureRunning ∈ main_dispatch "playlist" none ∧
    main_dispatch "playlist" none =
      [AutoAct.ensureRunning, AutoAct.bringToFront,
        AutoAct.notice "Missing playlist URI."] := by
  decide

/-- C3 amended: a playlist intent with an empty or missing target reports the
missing-target notice and never calls `openPlaylist`, `searchAndPlay` or
`transport`; the API dispatcher performs no backend call at all, while the
automation dispatcher still calls `ensureRunning` and `bringToFront` before
the target check. -/
theorem dispatch_missing_target_amended (arg : Option String)
    (h : truthy arg = false) :
    main_dispatch "playlist" arg =
      [AutoAct.ensureRunning, AutoAct.bringToFront,
        AutoAct.notice "Missing playlist URI."] ∧
    (∀ u, AutoAct.openPlaylist u ∉ main_dispatch "playlist" arg) ∧
    (∀ q, AutoAct.searchAndPlay q ∉ main_dispatch "playlist" arg) ∧
    (∀ c, AutoAct.transport c ∉ main_dispatch "playlist" arg) ∧
    handle_intent_api "playlist" arg = [ApiAct.notice "Missing playlist URI."] := by
  have hm : main_dispatch "playlist" arg =
      [AutoAct.ensureRunning, AutoAct.bringToFront,
        AutoAct.notice "Missing playlist URI."] := by
    unfold main_dispatch
    rw [if_neg (by decide : ¬ ("playlist" : String) = "transport"), if_pos rfl, h]
    rfl
  have ha : handle_intent_api "playlist" arg = [ApiAct.notice "Missing playlist URI."] := by
    unfold handle_intent_api
    rw [if_neg (by decide : ¬ ("playlist" : String) = "transport"), if_pos rfl, if_pos h]
  refine ⟨hm, ?_, ?_, ?_, ha⟩
  · intro u hu
    rw [hm] at hu
    simp at hu
  · intro q hq
    rw [hm] at hq
    simp at hq
  · intro c hc
    rw [hm] at hc
    simp at hc

/-- Witness for C3's amended statement at the concrete missing target `None`. -/
theorem dispatch_missing_target_amended_witness :
    handle_intent_api "playlist" none = [ApiAct.notice "Missing playlist URI."] :=
  (dispatch_missing_target_amended none rfl).2.2.2.2

end VoiceAssistant
